import Mathlib

/-!
# Binary record file I/O (`43 Files/Open_Close_File.c`)

A shallow embedding of `Write_Person`, `Read_Person` and `main`.

* A `person` is the C struct seen as its 36 bytes of memory: `char name[25]`,
  three alignment bytes, a 32-bit two's-complement `int id` and a binary32
  `float score`, the latter kept as its IEEE-754 bit pattern (the program only
  copies scores and stores the constant `100.0`).
* The file system is explicit state: the byte content of every existing file
  and, per path, whether `fopen` succeeds in mode `"wb"` and in mode `"rb+"`.
* Standard output and the error stream are a list of events.
* Indexing the array outside its bounds stops the execution with a `Fault`;
  the state reached at that point is kept.
-/

namespace OpenCloseFile

/-! ## Records and their memory representation -/

/-- Capacity of `char name[25]`. -/
def NAME_LEN : Nat := 25

/-- Alignment bytes between `name` and `id` (`int` is 4-byte aligned). -/
def PAD_LEN : Nat := 3

/-- The value of `sizeof(person)`: 25 + 3 + 4 + 4. -/
def SIZEOF_PERSON : Nat := 36

/-- The struct `person` of the source, with its alignment bytes made explicit. -/
structure person where
  name : List Nat
  pad : List Nat
  id : Int
  score : Nat
deriving DecidableEq, Repr

/-- A byte list of the given length. -/
def isBytes (len : Nat) (bs : List Nat) : Prop :=
  bs.length = len ∧ ∀ b ∈ bs, b < 256

instance (len : Nat) (bs : List Nat) : Decidable (isBytes len bs) := by
  unfold isBytes; infer_instance

/-- The values a `person` object can hold: 25 name bytes, 3 alignment bytes,
a 32-bit signed `id` and a 32-bit `score` pattern. -/
def person.wf (r : person) : Prop :=
  isBytes NAME_LEN r.name ∧ isBytes PAD_LEN r.pad ∧
  -2147483648 ≤ r.id ∧ r.id < 2147483648 ∧ r.score < 4294967296

instance (r : person) : Decidable r.wf := by
  unfold person.wf; infer_instance

/-- An array of `person` objects. -/
def wfArray (p : List person) : Prop := ∀ r ∈ p, r.wf

instance (p : List person) : Decidable (wfArray p) := by
  unfold wfArray; infer_instance

/-- Little-endian bytes of a 32-bit word. -/
def le32 (n : Nat) : List Nat :=
  [n % 256, n / 256 % 256, n / 65536 % 256, n / 16777216 % 256]

/-- The 32-bit word held by four little-endian bytes. -/
def unle32 (bs : List Nat) : Nat :=
  bs.getD 0 0 + 256 * bs.getD 1 0 + 65536 * bs.getD 2 0 + 16777216 * bs.getD 3 0

/-- Two's-complement representation of an `int`. -/
def int_to_u32 (i : Int) : Nat := (i % 4294967296).toNat

/-- The `int` a 32-bit two's-complement word stands for. -/
def u32_to_int (u : Nat) : Int :=
  if u < 2147483648 then (u : Int) else (u : Int) - 4294967296

/-- The 36 bytes of one `person` object in memory. -/
def encode (r : person) : List Nat :=
  r.name ++ r.pad ++ le32 (int_to_u32 r.id) ++ le32 r.score

/-- The `person` object held by 36 bytes of memory. -/
def decode (bs : List Nat) : person :=
  { name := bs.take 25
    pad := (bs.drop 25).take 3
    id := u32_to_int (unle32 ((bs.drop 28).take 4))
    score := unle32 ((bs.drop 32).take 4) }

/-- The bytes of an array of `person` objects. -/
def bytesOf : List person → List Nat
  | [] => []
  | r :: rs => encode r ++ bytesOf rs

/-- The array of `n` `person` objects held by a memory region. -/
def recordsOf : Nat → List Nat → List person
  | 0, _ => []
  | n + 1, bs => decode (bs.take 36) :: recordsOf n (bs.drop 36)

/-- The binary32 pattern of `100.0` (sign 0, exponent 133, fraction 0x480000). -/
def HUNDRED : Nat := 1120403456

/-! ## Output -/

/-- An argument of a `printf` call. -/
inductive Arg where
  | str (bytes : List Nat)
  | int (v : Int)
  | float (bits : Nat)
deriving DecidableEq, Repr

/-- One call that produces output: `printf(fmt, args...)` on standard output,
or `perror(msg)` on the error stream. -/
inductive Event where
  | printf (fmt : String) (args : List Arg)
  | perror (msg : String)
deriving DecidableEq, Repr

/-! ## File system and stdio -/

/-- File-system state. -/
structure FS where
  data : String → Option (List Nat)
  writable : String → Bool
  updatable : String → Bool

/-- The modes the program opens files in. -/
inductive Mode where
  | wb
  | rbPlus
deriving DecidableEq, Repr

/-- An open stream: the file it is attached to and the current position. -/
structure FILE where
  path : String
  pos : Nat
deriving DecidableEq, Repr

/-- Library call `fopen`: mode `"wb"` creates or truncates the file, mode `"rb+"`
needs an existing file; `none` is the `NULL` result and leaves the state as is. -/
def fopen (fs : FS) (filename : String) : Mode → FS × Option FILE
  | Mode.wb =>
    if fs.writable filename then
      ({ fs with data := Function.update fs.data filename (some []) }, some ⟨filename, 0⟩)
    else (fs, none)
  | Mode.rbPlus =>
    match fs.data filename with
    | some _ => if fs.updatable filename then (fs, some ⟨filename, 0⟩) else (fs, none)
    | none => (fs, none)

/-- Library call `fwrite(p, size, count, ptr)`: copies `size * count` bytes of the
array to the file at the stream position; `none` when the array is shorter. The
transfer is complete: the source ignores the returned count, and a short write is
outside this model. -/
def fwrite (fs : FS) (p : List person) (size count : Nat) (ptr : FILE) : Option (FS × FILE) :=
  let mem := bytesOf p
  if size * count ≤ mem.length then
    let bytes := mem.take (size * count)
    let old := (fs.data ptr.path).getD []
    let new := old.take ptr.pos ++ bytes ++ old.drop (ptr.pos + bytes.length)
    some ({ fs with data := Function.update fs.data ptr.path (some new) },
          { ptr with pos := ptr.pos + bytes.length })
  else none

/-- Library call `fread(p, size, count, ptr)`: copies up to `size * count` bytes
from the stream position over the start of the array; `none` when they do not fit. -/
def fread (fs : FS) (p : List person) (size count : Nat) (ptr : FILE) :
    Option (List person × FILE) :=
  let mem := bytesOf p
  let avail := ((fs.data ptr.path).getD []).drop ptr.pos
  let m := min (size * count) avail.length
  if m ≤ mem.length then
    some (recordsOf p.length (avail.take m ++ mem.drop m), { ptr with pos := ptr.pos + m })
  else none

/-- Library call `fclose`: the data is already in the file. -/
def fclose (fs : FS) (_ptr : FILE) : FS := fs

/-! ## The program -/

/-- Why an execution stopped before returning. -/
inductive Fault where
  | outOfBounds (i : Nat)
  | overrun
deriving DecidableEq, Repr

/-- The state in which a call returned, or stopped with a fault. -/
structure Exec where
  fs : FS
  p : List person
  out : List Event
  fault : Option Fault

/-- The function `Write_Person` of the source. -/
def Write_Person (fs : FS) (filename : String) (p : List person) (count : Nat) : Exec :=
  match fopen fs filename Mode.wb with
  | (fs1, none) =>
    ⟨fs1, p, [Event.perror "Erorr Accur While Writing File. "], none⟩
  | (fs1, some ptr) =>
    match fwrite fs1 p SIZEOF_PERSON count ptr with
    | none => ⟨fs1, p, [], some Fault.overrun⟩
    | some (fs2, ptr2) =>
      ⟨fclose fs2 ptr2, p, [Event.printf "File Writed to File permenently. \n" []], none⟩

/-- Local state of the scan loop of `Read_Person`. -/
structure ScanState where
  p : List person
  found : Int
  out : List Event
deriving DecidableEq, Repr

/-- The `printf` call of the loop body. -/
def recordLine (r : person) : Event :=
  Event.printf "Name: %s, Age: %d and Score: %.2f \n"
    [Arg.str r.name, Arg.int r.id, Arg.float r.score]

/-- Body of the loop of `Read_Person` at index `i`. The source tests no bound: an
index outside the storage at `p` is undefined behaviour in C, which is represented
here by stopping with `Fault.outOfBounds i`; nothing is said about what a compiled
program does after such an access. -/
def scanBody (i : Nat) (s : ScanState) : Except Fault ScanState :=
  match s.p[i]? with
  | none => Except.error (Fault.outOfBounds i)
  | some r =>
    if r.id = 2 then
      let r1 := { r with score := HUNDRED }
      Except.ok ⟨s.p.set i r1, 1, s.out ++ [recordLine r1]⟩
    else
      Except.ok ⟨s.p, s.found, s.out ++ [recordLine r]⟩

/-- The loop `for (int i = ...; i < ...; i++)` with `k` iterations left. -/
def scanLoop : Nat → Nat → ScanState → ScanState × Option Fault
  | 0, _, s => (s, none)
  | k + 1, i, s =>
    match scanBody i s with
    | Except.error f => (s, some f)
    | Except.ok s1 => scanLoop k (i + 1) s1

/-- The function `Read_Person` of the source. -/
def Read_Person (fs : FS) (filename : String) (p : List person) (count : Nat) : Exec :=
  match fopen fs filename Mode.rbPlus with
  | (fs1, none) =>
    ⟨fs1, p, [Event.perror "Erorr Accur While Reading File. "], none⟩
  | (fs1, some ptr) =>
    match fread fs1 p SIZEOF_PERSON count ptr with
    | none => ⟨fs1, p, [], some Fault.overrun⟩
    | some (p1, ptr1) =>
      let fs2 := fclose fs1 ptr1
      match scanLoop (4 - 0) 0 ⟨p1, 0, []⟩ with
      | (s, some f) => ⟨fs2, s.p, s.out, some f⟩
      | (s, none) =>
        if s.found ≠ 0 then
          ⟨fs2, s.p, s.out ++ [Event.printf "Record Updated Successfully. \n" []], none⟩
        else
          ⟨fs2, s.p, s.out ++ [Event.printf "Record not found. \n" []], none⟩

/-- The update the loop body applies to a scanned record. -/
def upd (r : person) : person :=
  if r.id = 2 then { r with score := HUNDRED } else r

/-- The array after the scan loop has run over its first four records. -/
def scanned (p : List person) : List person :=
  (p.take 4).map upd ++ p.drop 4

/-- The lines the scan loop prints for the first four records. -/
def scanLines (p : List person) : List Event :=
  (p.take 4).map (fun r => recordLine (upd r))

/-- Whether one of the first four records has `id` 2, as the `int` flag `found`. -/
def foundFlag (p : List person) : Int :=
  if ∃ r ∈ p.take 4, r.id = 2 then 1 else 0

/-- The message that ends a completed scan. -/
def verdict (p1 : List person) : Event :=
  if foundFlag p1 ≠ 0 then Event.printf "Record Updated Successfully. \n" []
  else Event.printf "Record not found. \n" []

/-- The array `fread` leaves in memory when the file holds `bytes`. -/
def loaded (bytes : List Nat) (p : List person) (count : Nat) : List person :=
  recordsOf p.length
    (bytes.take (min (36 * count) bytes.length)
      ++ (bytesOf p).drop (min (36 * count) bytes.length))

/-- The record stored at index `i` of a file. -/
def fileRecord (bytes : List Nat) (i : Nat) : person :=
  decode ((bytes.drop (36 * i)).take 36)

/-- The composition of the two operations on one file: `Write_Person` of `count`
records of `p`, then `Read_Person` of `count` records into `buf`. -/
def Write_then_Read (fs : FS) (filename : String) (p buf : List person) (count : Nat) : Exec :=
  Read_Person (Write_Person fs filename p count).fs filename buf count

/-- Initialiser of a `char[25]` from a string literal: its characters, then zero bytes. -/
def cstr (s : String) : List Nat :=
  (s.toList.map Char.toNat ++ List.replicate NAME_LEN 0).take NAME_LEN

/-- The array `p` of `main`, scores `90.56`, `17.45`, `67.23`, `81.3` as binary32 patterns. -/
def main_p : List person :=
  [⟨cstr "Farhad Rahimi Klie", [0, 0, 0], 1, 1119166136⟩,
   ⟨cstr "Hashmatullah Ishan", [0, 0, 0], 2, 1099667866⟩,
   ⟨cstr "Rustam Hayat Elbegi", [0, 0, 0], 3, 1116108227⟩,
   ⟨cstr "Shaher Ishan", [0, 0, 0], 4, 1117952410⟩]

/-- The function `main` of the source: the call of `Write_Person` is commented out,
`Read_Person` runs on `"data.bin"`, and the exit code is 0. -/
def main (fs : FS) : Exec × Int :=
  (Read_Person fs "data.bin" main_p 4, 0)

/-! ## Example states -/

/-- A file system without files in which every path can be opened. -/
def freshFS : FS := ⟨fun _ => none, fun _ => true, fun _ => true⟩

/-- A file system without files in which no path can be opened. -/
def lockedFS : FS := ⟨fun _ => none, fun _ => false, fun _ => false⟩

/-- A file system whose only file, `"data.bin"`, holds the records of `main_p`. -/
def dataFS : FS :=
  ⟨fun f => if f = "data.bin" then some (bytesOf main_p) else none,
    fun _ => true, fun _ => true⟩

/-- Five records, the last one with `id` 2 and score `17.45`. -/
def five : List person :=
  main_p ++ [⟨cstr "Extra", [0, 0, 0], 2, 1099667866⟩]

/-- A file system whose only file, `"data.bin"`, holds the records of `five`. -/
def fiveFS : FS :=
  ⟨fun f => if f = "data.bin" then some (bytesOf five) else none,
    fun _ => true, fun _ => true⟩

/-- The records of the scenario, scores `90.5`, `17.4`, `67.2`, `81.3` as binary32 patterns. -/
def scenario : List person :=
  [⟨cstr "Ann", [0, 0, 0], 1, 1119158272⟩,
   ⟨cstr "Bo", [0, 0, 0], 2, 1099641651⟩,
   ⟨cstr "Cy", [0, 0, 0], 3, 1116104294⟩,
   ⟨cstr "Di", [0, 0, 0], 4, 1117952410⟩]

/-- An array of two records. -/
def two : List person := scenario.take 2

/-- Significand of a positive normal binary32 pattern. -/
def f32sig (bits : Nat) : Nat := 8388608 + bits % 8388608

/-- Biased exponent of a binary32 pattern; the value is `f32sig * 2 ^ (f32exp - 150)`. -/
def f32exp (bits : Nat) : Nat := bits / 8388608 % 256

/-! ## Memory representation: lemmas -/

theorem unle32_le32 (n : Nat) (h : n < 4294967296) : unle32 (le32 n) = n := by
  simp only [le32, unle32, List.getD_cons_zero, List.getD_cons_succ]
  omega

theorem int_to_u32_lt (i : Int) : int_to_u32 i < 4294967296 := by
  unfold int_to_u32; omega

theorem u32_to_int_to_u32 (i : Int) (h1 : -2147483648 ≤ i) (h2 : i < 2147483648) :
    u32_to_int (int_to_u32 i) = i := by
  unfold u32_to_int int_to_u32
  split <;> omega

theorem length_le32 (n : Nat) : (le32 n).length = 4 := rfl

theorem length_encode (r : person) (h : r.wf) : (encode r).length = 36 := by
  obtain ⟨⟨hn, -⟩, ⟨hp, -⟩, -⟩ := h
  simp [encode, length_le32, hn, hp, NAME_LEN, PAD_LEN]

theorem decode_encode_append (r : person) (h : r.wf) (rest : List Nat) :
    decode ((encode r ++ rest).take 36) = r := by
  have hlen := length_encode r h
  obtain ⟨⟨hn, -⟩, ⟨hp, -⟩, h1, h2, h3⟩ := h
  rw [List.take_left' hlen]
  obtain ⟨name, pad, id, score⟩ := r
  simp only [NAME_LEN, PAD_LEN] at hn hp
  have e : encode ⟨name, pad, id, score⟩
      = name ++ (pad ++ (le32 (int_to_u32 id) ++ le32 score)) := by
    simp [encode]
  have d25 : (encode ⟨name, pad, id, score⟩).drop 25
      = pad ++ (le32 (int_to_u32 id) ++ le32 score) := by
    rw [e]; exact List.drop_left' hn
  have d28 : (encode ⟨name, pad, id, score⟩).drop 28
      = le32 (int_to_u32 id) ++ le32 score := by
    have : (28 : Nat) = 25 + 3 := rfl
    rw [this, ← List.drop_drop, d25]; exact List.drop_left' hp
  have d32 : (encode ⟨name, pad, id, score⟩).drop 32 = le32 score := by
    have : (32 : Nat) = 28 + 4 := rfl
    rw [this, ← List.drop_drop, d28]; exact List.drop_left' (length_le32 _)
  unfold decode
  rw [d25, d28, d32, List.take_left' hp, List.take_left' (length_le32 _)]
  have t25 : (encode ⟨name, pad, id, score⟩).take 25 = name := by
    rw [e]; exact List.take_left' hn
  have t4 : (le32 score).take 4 = le32 score := rfl
  rw [t25, t4, unle32_le32 _ (int_to_u32_lt id), unle32_le32 _ h3,
    u32_to_int_to_u32 id h1 h2]

theorem length_bytesOf (p : List person) (h : wfArray p) :
    (bytesOf p).length = 36 * p.length := by
  induction p with
  | nil => rfl
  | cons r rs ih =>
    have hr : r.wf := h r (List.mem_cons_self _ _)
    have hrs : wfArray rs := fun x hx => h x (List.mem_cons_of_mem _ hx)
    simp only [bytesOf, List.length_append, List.length_cons, length_encode r hr, ih hrs]
    omega

theorem recordsOf_bytesOf_append (p : List person) (h : wfArray p) (rest : List Nat) :
    recordsOf p.length (bytesOf p ++ rest) = p := by
  induction p with
  | nil => rfl
  | cons r rs ih =>
    have hr : r.wf := h r (List.mem_cons_self _ _)
    have hrs : wfArray rs := fun x hx => h x (List.mem_cons_of_mem _ hx)
    simp only [bytesOf, List.length_cons, recordsOf, List.append_assoc]
    rw [decode_encode_append r hr, List.drop_left' (length_encode r hr), ih hrs]

theorem recordsOf_bytesOf (p : List person) (h : wfArray p) :
    recordsOf p.length (bytesOf p) = p := by
  have := recordsOf_bytesOf_append p h []
  simpa using this

theorem length_recordsOf (n : Nat) (bs : List Nat) : (recordsOf n bs).length = n := by
  induction n generalizing bs with
  | zero => rfl
  | succ k ih => simp [recordsOf, ih]

/-! ## The scan loop: lemmas -/

theorem scanLoop_four (a b c d : person) (rest : List person) (out : List Event) :
    scanLoop 4 0 ⟨a :: b :: c :: d :: rest, 0, out⟩
      = (⟨scanned (a :: b :: c :: d :: rest), foundFlag (a :: b :: c :: d :: rest),
          out ++ scanLines (a :: b :: c :: d :: rest)⟩, none) := by
  by_cases ha : a.id = 2 <;> by_cases hb : b.id = 2 <;> by_cases hc : c.id = 2 <;>
    by_cases hd : d.id = 2 <;>
    simp [scanLoop, scanBody, scanned, scanLines, foundFlag, upd, ha, hb, hc, hd]

theorem scanLoop_of_four_le (p : List person) (h : 4 ≤ p.length) (out : List Event) :
    scanLoop 4 0 ⟨p, 0, out⟩ = (⟨scanned p, foundFlag p, out ++ scanLines p⟩, none) := by
  match p, h with
  | a :: b :: c :: d :: rest, _ => exact scanLoop_four a b c d rest out

theorem scanLoop_short (p : List person) (h : p.length < 4) (out : List Event) :
    scanLoop 4 0 ⟨p, 0, out⟩
      = (⟨p.map upd, foundFlag p, out ++ p.map (fun r => recordLine (upd r))⟩,
          some (Fault.outOfBounds p.length)) := by
  match p, h with
  | [], _ => simp [scanLoop, scanBody, foundFlag]
  | [a], _ =>
    by_cases ha : a.id = 2 <;> simp [scanLoop, scanBody, foundFlag, upd, ha]
  | [a, b], _ =>
    by_cases ha : a.id = 2 <;> by_cases hb : b.id = 2 <;>
      simp [scanLoop, scanBody, foundFlag, upd, ha, hb]
  | [a, b, c], _ =>
    by_cases ha : a.id = 2 <;> by_cases hb : b.id = 2 <;> by_cases hc : c.id = 2 <;>
      simp [scanLoop, scanBody, foundFlag, upd, ha, hb, hc]

theorem length_scanned (p : List person) : (scanned p).length = p.length := by
  simp only [scanned, List.length_append, List.length_map, List.length_take,
    List.length_drop]
  omega

theorem getElem?_scanned (p : List person) (i : Nat) :
    (scanned p)[i]? = if i < 4 then p[i]?.map upd else p[i]? := by
  unfold scanned
  rw [List.getElem?_append]
  simp only [List.length_map, List.length_take, List.getElem?_map, List.getElem?_take,
    List.getElem?_drop]
  by_cases h4 : i < 4
  · by_cases hl : i < p.length
    · have : i < min 4 p.length := by omega
      simp [h4, this]
    · have h1 : ¬ i < min 4 p.length := by omega
      have h2 : p[i]? = none := List.getElem?_eq_none (by omega)
      have h3 : p[4 + (i - min 4 p.length)]? = none := List.getElem?_eq_none (by omega)
      simp [h4, h1, h2, h3]
  · have h1 : ¬ i < min 4 p.length := by omega
    by_cases hl : 4 ≤ p.length
    · have : 4 + (i - min 4 p.length) = i := by omega
      simp [h4, h1, this]
    · have h2 : p[i]? = none := List.getElem?_eq_none (by omega)
      have h3 : p[4 + (i - min 4 p.length)]? = none := List.getElem?_eq_none (by omega)
      simp [h4, h1, h2, h3]

theorem upd_name (r : person) : (upd r).name = r.name := by
  unfold upd; split <;> rfl

theorem upd_pad (r : person) : (upd r).pad = r.pad := by
  unfold upd; split <;> rfl

theorem upd_id (r : person) : (upd r).id = r.id := by
  unfold upd; split <;> rfl

theorem upd_score (r : person) : (upd r).score = if r.id = 2 then HUNDRED else r.score := by
  unfold upd; split <;> rfl

theorem foundFlag_ne_zero (p : List person) :
    foundFlag p ≠ 0 ↔ ∃ i r, i < 4 ∧ p[i]? = some r ∧ r.id = 2 := by
  unfold foundFlag
  have key : (∃ r ∈ p.take 4, r.id = 2) ↔ ∃ i r, i < 4 ∧ p[i]? = some r ∧ r.id = 2 := by
    constructor
    · rintro ⟨r, hr, h2⟩
      obtain ⟨i, hi⟩ := List.getElem?_of_mem hr
      rw [List.getElem?_take] at hi
      by_cases h4 : i < 4
      · rw [if_pos h4] at hi
        exact ⟨i, r, h4, hi, h2⟩
      · rw [if_neg h4] at hi
        cases hi
    · rintro ⟨i, r, h4, hi, h2⟩
      refine ⟨r, ?_, h2⟩
      have hm : (p.take 4)[i]? = some r := by
        rw [List.getElem?_take, if_pos h4]
        exact hi
      exact List.getElem?_mem hm
  rw [← key]
  split <;> simp_all

/-! ## The two operations: lemmas -/

theorem fopen_rbPlus_fst (fs : FS) (filename : String) :
    (fopen fs filename Mode.rbPlus).1 = fs := by
  unfold fopen
  cases fs.data filename with
  | none => rfl
  | some bytes => by_cases h : fs.updatable filename = true <;> simp [h]

theorem fopen_fail_fst (fs : FS) (filename : String) (m : Mode)
    (h : (fopen fs filename m).2 = none) : (fopen fs filename m).1 = fs := by
  cases m with
  | rbPlus => exact fopen_rbPlus_fst fs filename
  | wb =>
    unfold fopen at h ⊢
    by_cases hw : fs.writable filename = true <;> simp_all

theorem fopen_rbPlus_ok (fs : FS) (filename : String) (bytes : List Nat)
    (hd : fs.data filename = some bytes) (hu : fs.updatable filename = true) :
    fopen fs filename Mode.rbPlus = (fs, some ⟨filename, 0⟩) := by
  simp [fopen, hd, hu]

theorem fopen_wb_ok (fs : FS) (filename : String) (hw : fs.writable filename = true) :
    fopen fs filename Mode.wb
      = ({ fs with data := Function.update fs.data filename (some []) },
          some ⟨filename, 0⟩) := by
  simp [fopen, hw]

theorem Write_Person_of_fail (fs : FS) (filename : String) (p : List person) (count : Nat)
    (h : (fopen fs filename Mode.wb).2 = none) :
    Write_Person fs filename p count
      = ⟨fs, p, [Event.perror "Erorr Accur While Writing File. "], none⟩ := by
  have h1 := fopen_fail_fst fs filename Mode.wb h
  unfold Write_Person
  rcases hf : fopen fs filename Mode.wb with ⟨fs1, o⟩
  rw [hf] at h h1
  simp only at h h1
  subst h h1
  rfl

theorem Write_Person_of_ok (fs : FS) (filename : String) (p : List person) (count : Nat)
    (hw : fs.writable filename = true) (hp : wfArray p) (hc : count ≤ p.length) :
    Write_Person fs filename p count
      = ⟨⟨Function.update fs.data filename (some ((bytesOf p).take (36 * count))),
            fs.writable, fs.updatable⟩,
          p, [Event.printf "File Writed to File permenently. \n" []], none⟩ := by
  have hlen := length_bytesOf p hp
  have hle : 36 * count ≤ (bytesOf p).length := by omega
  unfold Write_Person
  rw [fopen_wb_ok fs filename hw]
  simp [fwrite, fclose, SIZEOF_PERSON, hle]

theorem Read_Person_of_fail (fs : FS) (filename : String) (p : List person) (count : Nat)
    (h : (fopen fs filename Mode.rbPlus).2 = none) :
    Read_Person fs filename p count
      = ⟨fs, p, [Event.perror "Erorr Accur While Reading File. "], none⟩ := by
  have h1 := fopen_rbPlus_fst fs filename
  unfold Read_Person
  rcases hf : fopen fs filename Mode.rbPlus with ⟨fs1, o⟩
  rw [hf] at h h1
  simp only at h h1
  subst h h1
  rfl

theorem Read_Person_of_fread (fs : FS) (filename : String) (p : List person) (count : Nat)
    (bytes : List Nat) (p1 : List person) (ptr1 : FILE)
    (hd : fs.data filename = some bytes) (hu : fs.updatable filename = true)
    (hr : fread fs p SIZEOF_PERSON count ⟨filename, 0⟩ = some (p1, ptr1))
    (h4 : 4 ≤ p1.length) :
    Read_Person fs filename p count
      = ⟨fs, scanned p1, scanLines p1 ++ [verdict p1], none⟩ := by
  unfold Read_Person
  rw [fopen_rbPlus_ok fs filename bytes hd hu]
  simp only [hr, Nat.sub_zero, scanLoop_of_four_le p1 h4, fclose, List.nil_append, verdict]
  split <;> rfl

theorem Read_Person_of_short (fs : FS) (filename : String) (p : List person) (count : Nat)
    (bytes : List Nat) (p1 : List person) (ptr1 : FILE)
    (hd : fs.data filename = some bytes) (hu : fs.updatable filename = true)
    (hr : fread fs p SIZEOF_PERSON count ⟨filename, 0⟩ = some (p1, ptr1))
    (h4 : p1.length < 4) :
    Read_Person fs filename p count
      = ⟨fs, p1.map upd, p1.map (fun r => recordLine (upd r)),
          some (Fault.outOfBounds p1.length)⟩ := by
  unfold Read_Person
  rw [fopen_rbPlus_ok fs filename bytes hd hu]
  simp only [hr, Nat.sub_zero, scanLoop_short p1 h4, fclose, List.nil_append]

theorem fread_ok (fs : FS) (filename : String) (p : List person) (count : Nat)
    (bytes : List Nat) (hd : fs.data filename = some bytes)
    (hp : wfArray p) (hc : count ≤ p.length) :
    fread fs p SIZEOF_PERSON count ⟨filename, 0⟩
      = some (loaded bytes p count, ⟨filename, min (36 * count) bytes.length⟩) := by
  have hlen := length_bytesOf p hp
  have hle : min (36 * count) bytes.length ≤ (bytesOf p).length := by omega
  simp [fread, loaded, SIZEOF_PERSON, hd, hle]

theorem length_loaded (bytes : List Nat) (p : List person) (count : Nat) :
    (loaded bytes p count).length = p.length := length_recordsOf _ _

theorem getElem?_recordsOf (n : Nat) (bs : List Nat) (i : Nat) (h : i < n) :
    (recordsOf n bs)[i]? = some (fileRecord bs i) := by
  induction n generalizing bs i with
  | zero => omega
  | succ k ih =>
    cases i with
    | zero => simp [recordsOf, fileRecord]
    | succ j =>
      have hj : j < k := by omega
      have e : 36 + 36 * j = 36 * (j + 1) := by omega
      simp [recordsOf, ih (bs.drop 36) j hj, fileRecord, List.drop_drop, e]

theorem fileRecord_append (bs rest : List Nat) (i : Nat) (h : 36 * (i + 1) ≤ bs.length) :
    fileRecord (bs ++ rest) i = fileRecord bs i := by
  unfold fileRecord
  congr 1
  rw [List.drop_append_of_le_length (by omega), List.take_append_of_le_length]
  rw [List.length_drop]; omega

theorem fileRecord_take (bs : List Nat) (m i : Nat) (h : 36 * (i + 1) ≤ m) :
    fileRecord (bs.take m) i = fileRecord bs i := by
  unfold fileRecord
  congr 1
  rw [List.drop_take, List.take_take]
  congr 1
  omega

theorem getElem?_loaded (bytes : List Nat) (p : List person) (count i : Nat)
    (hi : i < count) (hip : i < p.length) (hb : 36 * (i + 1) ≤ bytes.length) :
    (loaded bytes p count)[i]? = some (fileRecord bytes i) := by
  unfold loaded
  rw [getElem?_recordsOf _ _ _ hip, fileRecord_append, fileRecord_take]
  · omega
  · rw [List.length_take]; omega

theorem loaded_of_written (rs buf : List person) (hrs : wfArray rs) (hbuf : wfArray buf)
    (hlen : buf.length = rs.length) :
    loaded ((bytesOf rs).take (36 * rs.length)) buf rs.length = rs := by
  have h1 := length_bytesOf rs hrs
  have h2 := length_bytesOf buf hbuf
  have e1 : (bytesOf rs).take (36 * rs.length) = bytesOf rs := by
    rw [← h1]; exact List.take_length _
  have e3 : (bytesOf buf).drop (36 * rs.length) = [] := by
    apply List.drop_eq_nil_of_le; omega
  unfold loaded
  rw [e1, h1, Nat.min_self, e3, hlen, ← h1, List.take_length, List.append_nil]
  exact recordsOf_bytesOf rs hrs

theorem take_bytesOf (rs : List person) (hrs : wfArray rs) :
    (bytesOf rs).take (36 * rs.length) = bytesOf rs := by
  rw [← length_bytesOf rs hrs]
  exact List.take_length _

theorem loaded_bytesOf (rs buf : List person) (hrs : wfArray rs) (hbuf : wfArray buf)
    (hlen : buf.length = rs.length) :
    loaded (bytesOf rs) buf rs.length = rs := by
  have h := loaded_of_written rs buf hrs hbuf hlen
  rw [take_bytesOf rs hrs] at h
  exact h

theorem Write_then_Read_eq (fs : FS) (filename : String) (rs buf : List person)
    (hw : fs.writable filename = true) (hu : fs.updatable filename = true)
    (hrs : wfArray rs) (hbuf : wfArray buf) (hlen : buf.length = rs.length)
    (h4 : 4 ≤ rs.length) :
    Write_then_Read fs filename rs buf rs.length
      = ⟨(Write_Person fs filename rs rs.length).fs, scanned rs,
          scanLines rs ++ [verdict rs], none⟩ := by
  unfold Write_then_Read
  rw [Write_Person_of_ok fs filename rs rs.length hw hrs (Nat.le_refl _)]
  have hd : (FS.mk (Function.update fs.data filename
      (some ((bytesOf rs).take (36 * rs.length)))) fs.writable fs.updatable).data filename
      = some ((bytesOf rs).take (36 * rs.length)) := by
    simp
  have hr := fread_ok _ filename buf rs.length _ hd hbuf (by omega)
  rw [loaded_of_written rs buf hrs hbuf hlen] at hr
  exact Read_Person_of_fread _ filename buf rs.length _ rs _ hd hu hr h4

theorem recordLine_ne_message (r : person) (msg : String) :
    recordLine r ≠ Event.printf msg [] := by
  simp [recordLine]

theorem message_not_mem_scanLines (p : List person) (msg : String) :
    Event.printf msg [] ∉ scanLines p := by
  intro h
  obtain ⟨r, -, hr⟩ := List.mem_map.mp h
  exact recordLine_ne_message _ _ hr

theorem Read_Person_eq (fs : FS) (filename : String) (p : List person) (count : Nat)
    (bytes : List Nat) (hd : fs.data filename = some bytes)
    (hu : fs.updatable filename = true) (hp : wfArray p) (hc : count ≤ p.length)
    (h4 : 4 ≤ p.length) :
    Read_Person fs filename p count
      = ⟨fs, scanned (loaded bytes p count),
          scanLines (loaded bytes p count) ++ [verdict (loaded bytes p count)], none⟩ :=
  Read_Person_of_fread fs filename p count bytes _ _ hd hu
    (fread_ok fs filename p count bytes hd hp hc)
    (by rw [length_loaded]; exact h4)

theorem fiveFS_data : fiveFS.data "data.bin" = some (bytesOf five) := by
  simp [fiveFS]

theorem dataFS_data : dataFS.data "data.bin" = some (bytesOf main_p) := by
  simp [dataFS]

/-- The score patterns used above denote the intended values: `100.0` and `90.5` are
exact, and the patterns for `17.4`, `67.2`, `81.3`, `90.56`, `17.45`, `67.23` lie
within half a unit in the last place of the decimal literal. -/
theorem score_patterns :
    (f32exp HUNDRED = 133 ∧ f32sig HUNDRED = 100 * 2 ^ 17) ∧
    (f32exp 1119158272 = 133 ∧ 2 * f32sig 1119158272 = 181 * 2 ^ 17) ∧
    (f32exp 1099641651 = 131 ∧ 10 * f32sig 1099641651 ≤ 174 * 2 ^ 19 + 5 ∧
      174 * 2 ^ 19 ≤ 10 * f32sig 1099641651 + 5) ∧
    (f32exp 1116104294 = 133 ∧ 10 * f32sig 1116104294 ≤ 672 * 2 ^ 17 + 5 ∧
      672 * 2 ^ 17 ≤ 10 * f32sig 1116104294 + 5) ∧
    (f32exp 1117952410 = 133 ∧ 10 * f32sig 1117952410 ≤ 813 * 2 ^ 17 + 5 ∧
      813 * 2 ^ 17 ≤ 10 * f32sig 1117952410 + 5) ∧
    (f32exp 1119166136 = 133 ∧ 100 * f32sig 1119166136 ≤ 9056 * 2 ^ 17 + 50 ∧
      9056 * 2 ^ 17 ≤ 100 * f32sig 1119166136 + 50) ∧
    (f32exp 1099667866 = 131 ∧ 100 * f32sig 1099667866 ≤ 1745 * 2 ^ 19 + 50 ∧
      1745 * 2 ^ 19 ≤ 100 * f32sig 1099667866 + 50) ∧
    (f32exp 1116108227 = 133 ∧ 100 * f32sig 1116108227 ≤ 6723 * 2 ^ 17 + 50 ∧
      6723 * 2 ^ 17 ≤ 100 * f32sig 1116108227 + 50) := by
  decide

/-! ## The claims -/

/-- C4: when `fopen` fails in `Read_Person`, the call returns with the destination
array, the file system and the fault status untouched, and its whole output is the
one `perror` message: no record line and no found or not-found message is printed. -/
theorem Read_Person_open_failure (fs : FS) (filename : String) (p : List person)
    (count : Nat) (h : (fopen fs filename Mode.rbPlus).2 = none) :
    (Read_Person fs filename p count).p = p ∧
    (Read_Person fs filename p count).fs = fs ∧
    (Read_Person fs filename p count).fault = none ∧
    (Read_Person fs filename p count).out
      = [Event.perror "Erorr Accur While Reading File. "] ∧
    ∀ fmt args, Event.printf fmt args ∉ (Read_Person fs filename p count).out := by
  rw [Read_Person_of_fail fs filename p count h]
  simp

theorem Read_Person_open_failure_witness :
    (fopen freshFS "data.bin" Mode.rbPlus).2 = none ∧
    (Read_Person freshFS "data.bin" main_p 4).p = main_p :=
  ⟨rfl, (Read_Person_open_failure freshFS "data.bin" main_p 4 rfl).1⟩

/-- C5: when `fopen` fails in `Write_Person`, the call reports the error with `perror`
and returns: the file system is unchanged and the confirmation is not printed. -/
theorem Write_Person_open_failure (fs : FS) (filename : String) (p : List person)
    (count : Nat) (h : (fopen fs filename Mode.wb).2 = none) :
    (Write_Person fs filename p count).fs = fs ∧
    (Write_Person fs filename p count).fault = none ∧
    (Write_Person fs filename p count).out
      = [Event.perror "Erorr Accur While Writing File. "] ∧
    Event.printf "File Writed to File permenently. \n" []
      ∉ (Write_Person fs filename p count).out := by
  rw [Write_Person_of_fail fs filename p count h]
  simp

theorem Write_Person_open_failure_witness :
    (fopen lockedFS "data.bin" Mode.wb).2 = none ∧
    (Write_Person lockedFS "data.bin" main_p 4).out
      = [Event.perror "Erorr Accur While Writing File. "] :=
  ⟨rfl, (Write_Person_open_failure lockedFS "data.bin" main_p 4 rfl).2.2.1⟩

/-- C6: a successful `Write_Person` of all records of `rs` leaves the file holding
exactly the bytes of `rs` in order (which decode back to `rs`), whatever the file held
before and whatever state the write started from; other files are untouched, and
writing a second time leaves the same file system as writing once. -/
theorem Write_Person_overwrites (fs : FS) (filename : String) (rs : List person)
    (hw : fs.writable filename = true) (hrs : wfArray rs) :
    (Write_Person fs filename rs rs.length).fault = none ∧
    (Write_Person fs filename rs rs.length).fs.data filename = some (bytesOf rs) ∧
    recordsOf rs.length (bytesOf rs) = rs ∧
    (∀ other, other ≠ filename →
      (Write_Person fs filename rs rs.length).fs.data other = fs.data other) ∧
    (∀ fs2 : FS, fs2.writable filename = true →
      (Write_Person fs2 filename rs rs.length).fs.data filename
        = (Write_Person fs filename rs rs.length).fs.data filename) ∧
    (Write_Person (Write_Person fs filename rs rs.length).fs filename rs rs.length).fs
      = (Write_Person fs filename rs rs.length).fs := by
  have hlen := length_bytesOf rs hrs
  have e1 : (bytesOf rs).take (36 * rs.length) = bytesOf rs := by
    rw [← hlen]; exact List.take_length _
  have key : ∀ fs2 : FS, fs2.writable filename = true →
      Write_Person fs2 filename rs rs.length
        = ⟨⟨Function.update fs2.data filename (some (bytesOf rs)), fs2.writable,
            fs2.updatable⟩, rs, [Event.printf "File Writed to File permenently. \n" []],
            none⟩ := by
    intro fs2 h2
    rw [Write_Person_of_ok fs2 filename rs rs.length h2 hrs (Nat.le_refl _), e1]
  rw [key fs hw]
  refine ⟨rfl, by simp, recordsOf_bytesOf rs hrs, ?_, ?_, ?_⟩
  · intro other ho
    simp [Function.update_noteq ho]
  · intro fs2 h2
    rw [key fs2 h2]
    simp
  · simp only
    rw [key (FS.mk (Function.update fs.data filename (some (bytesOf rs))) fs.writable
      fs.updatable) hw]
    simp

theorem Write_Person_overwrites_witness :
    freshFS.writable "data.bin" = true ∧ wfArray main_p ∧
    (Write_Person freshFS "data.bin" main_p main_p.length).fs.data "data.bin"
      = some (bytesOf main_p) :=
  ⟨rfl, by decide,
    (Write_Person_overwrites freshFS "data.bin" main_p rfl (by decide)).2.1⟩

/-- C7: `Read_Person` never changes the file system, whatever the file holds and
whatever the count and the array are, also when it stops on a fault: the content of
every file is as before, so a second read finds the same bytes and behaves as the
first. -/
theorem Read_Person_fs_unchanged (fs : FS) (filename : String) (p : List person)
    (count : Nat) :
    (Read_Person fs filename p count).fs = fs ∧
    (∀ other, (Read_Person fs filename p count).fs.data other = fs.data other) ∧
    (∀ (q : List person) (n : Nat) (ptr : FILE),
      fread (Read_Person fs filename p count).fs q SIZEOF_PERSON n ptr
        = fread fs q SIZEOF_PERSON n ptr) ∧
    (∀ (q : List person) (n : Nat),
      Read_Person (Read_Person fs filename p count).fs filename q n
        = Read_Person fs filename q n) := by
  have h : (Read_Person fs filename p count).fs = fs := by
    have h1 := fopen_rbPlus_fst fs filename
    unfold Read_Person
    rcases hf : fopen fs filename Mode.rbPlus with ⟨fs1, o⟩
    rw [hf] at h1
    simp only at h1
    subst h1
    cases o with
    | none => rfl
    | some ptr =>
      simp only
      cases hr : fread fs1 p SIZEOF_PERSON count ptr with
      | none => rfl
      | some res =>
        obtain ⟨p1, ptr1⟩ := res
        simp only
        rcases hs : scanLoop (4 - 0) 0 ⟨p1, 0, []⟩ with ⟨s, f⟩
        cases f with
        | some f => rfl
        | none =>
          simp only
          split <;> rfl
  rw [h]
  exact ⟨rfl, fun _ => rfl, fun _ _ _ => rfl, fun _ _ => rfl⟩

/-- C1, as stated, fails: after `main_p` is written and read back, both calls
succeeding, the record with `id` 2 holds score `100.0` and not the `17.45` that was
written, so the array read is not the array written. -/
theorem roundtrip_changes_score :
    (Write_Person freshFS "data.bin" main_p 4).fault = none ∧
    (Write_Person freshFS "data.bin" main_p 4).out
      = [Event.printf "File Writed to File permenently. \n" []] ∧
    (Write_then_Read freshFS "data.bin" main_p main_p 4).fault = none ∧
    (main_p[1]?).map person.score = some 1099667866 ∧
    ((Write_then_Read freshFS "data.bin" main_p main_p 4).p[1]?).map person.score
      = some HUNDRED ∧
    (Write_then_Read freshFS "data.bin" main_p main_p 4).p ≠ main_p := by
  have h := Write_then_Read_eq freshFS "data.bin" main_p main_p rfl rfl (by decide)
    (by decide) rfl (by decide)
  have h4 : main_p.length = 4 := rfl
  rw [h4] at h
  rw [h]
  refine ⟨?_, ?_, rfl, rfl, ?_, ?_⟩
  · rw [Write_Person_of_ok freshFS "data.bin" main_p 4 rfl (by decide) (by decide)]
  · rw [Write_Person_of_ok freshFS "data.bin" main_p 4 rfl (by decide) (by decide)]
  · decide
  · decide

/-- C1, amended: for well-formed records `rs` with at least four entries, a
successful `Write_Person` of all of `rs` followed by a successful `Read_Person` of as
many records into an array of that length returns without fault and leaves every
record with the name, alignment bytes and id it had in `rs`, and with its score too,
except that a record among the first four whose id is 2 has score `100.0`. -/
theorem write_then_read_roundtrip (fs : FS) (filename : String) (rs buf : List person)
    (hw : fs.writable filename = true) (hu : fs.updatable filename = true)
    (hrs : wfArray rs) (hbuf : wfArray buf) (hlen : buf.length = rs.length)
    (h4 : 4 ≤ rs.length) :
    (Write_Person fs filename rs rs.length).fault = none ∧
    (Write_Person fs filename rs rs.length).out
      = [Event.printf "File Writed to File permenently. \n" []] ∧
    (Write_then_Read fs filename rs buf rs.length).fault = none ∧
    (Write_then_Read fs filename rs buf rs.length).p.length = rs.length ∧
    ∀ i x, rs[i]? = some x →
      ∃ y, (Write_then_Read fs filename rs buf rs.length).p[i]? = some y ∧
        y.name = x.name ∧ y.pad = x.pad ∧ y.id = x.id ∧
        y.score = if i < 4 ∧ x.id = 2 then HUNDRED else x.score := by
  rw [Write_then_Read_eq fs filename rs buf hw hu hrs hbuf hlen h4,
    Write_Person_of_ok fs filename rs rs.length hw hrs (Nat.le_refl _)]
  refine ⟨rfl, rfl, rfl, length_scanned rs, ?_⟩
  intro i x hx
  simp only [getElem?_scanned, hx]
  by_cases hi : i < 4
  · refine ⟨upd x, by simp [hi], upd_name x, upd_pad x, upd_id x, ?_⟩
    rw [upd_score]
    simp [hi]
  · exact ⟨x, by simp [hi], rfl, rfl, rfl, by simp [hi]⟩

theorem write_then_read_roundtrip_witness :
    freshFS.writable "data.bin" = true ∧ freshFS.updatable "data.bin" = true ∧
    wfArray scenario ∧ wfArray main_p ∧ main_p.length = scenario.length ∧
    4 ≤ scenario.length ∧
    (Write_then_Read freshFS "data.bin" scenario main_p scenario.length).p.length
      = scenario.length :=
  ⟨rfl, rfl, by decide, by decide, rfl, by decide,
    (write_then_read_roundtrip freshFS "data.bin" scenario main_p rfl rfl (by decide)
      (by decide) rfl (by decide)).2.2.2.1⟩

/-- C2, as stated, fails: reading five records from a file whose fifth record has
`id` 2 and score `17.45` succeeds and leaves that record with `id` 2 and its score
`17.45`, not `100.0`. -/
theorem fifth_record_keeps_score :
    fiveFS.data "data.bin" = some (bytesOf five) ∧
    (Read_Person fiveFS "data.bin" five 5).fault = none ∧
    ((Read_Person fiveFS "data.bin" five 5).p[4]?).map (fun r => (r.id, r.score))
      = some (2, 1099667866) ∧
    (1099667866 : Nat) ≠ HUNDRED := by
  have hr := Read_Person_eq fiveFS "data.bin" five 5 (bytesOf five) fiveFS_data rfl
    (by decide) (by decide) (by decide)
  have hl : loaded (bytesOf five) five 5 = five := by
    have h := loaded_bytesOf five five (by decide) (by decide) rfl
    have h5 : five.length = 5 := rfl
    rw [h5] at h
    exact h
  rw [hl] at hr
  rw [hr]
  exact ⟨fiveFS_data, rfl, by decide, by decide⟩

/-- C2, amended: when `Read_Person` opens the file and the array has at least four
records and room for `count`, the call returns without fault; `fread` leaves in the
array the records stored in the file (for every index below `count` the file covers),
and afterwards every record among the first four whose id is 2 has score `100.0`,
while every other record (id not 2, or index 4 and above) has the id and score
that `fread` left there. -/
theorem read_mutation_scope (fs : FS) (filename : String) (p : List person) (count : Nat)
    (bytes : List Nat) (hd : fs.data filename = some bytes)
    (hu : fs.updatable filename = true) (hp : wfArray p) (hc : count ≤ p.length)
    (h4 : 4 ≤ p.length) :
    (Read_Person fs filename p count).fault = none ∧
    ∃ p1 ptr1, fread fs p SIZEOF_PERSON count ⟨filename, 0⟩ = some (p1, ptr1) ∧
      (∀ i, i < count → 36 * (i + 1) ≤ bytes.length →
        p1[i]? = some (fileRecord bytes i)) ∧
      (Read_Person fs filename p count).p.length = p1.length ∧
      ∀ i r1, p1[i]? = some r1 →
        ∃ r, (Read_Person fs filename p count).p[i]? = some r ∧ r.id = r1.id ∧
          r.score = if i < 4 ∧ r1.id = 2 then HUNDRED else r1.score := by
  rw [Read_Person_eq fs filename p count bytes hd hu hp hc h4]
  refine ⟨rfl, _, _, fread_ok fs filename p count bytes hd hp hc, ?_, length_scanned _, ?_⟩
  · intro i hi hb
    exact getElem?_loaded bytes p count i hi (by omega) hb
  · intro i r1 h1
    simp only [getElem?_scanned, h1]
    by_cases hi : i < 4
    · refine ⟨upd r1, by simp [hi], upd_id r1, ?_⟩
      rw [upd_score]
      simp [hi]
    · exact ⟨r1, by simp [hi], rfl, by simp [hi]⟩

theorem read_mutation_scope_witness :
    dataFS.data "data.bin" = some (bytesOf main_p) ∧ dataFS.updatable "data.bin" = true ∧
    wfArray scenario ∧ 4 ≤ scenario.length ∧
    (Read_Person dataFS "data.bin" scenario 4).fault = none :=
  ⟨dataFS_data, rfl, by decide, by decide,
    (read_mutation_scope dataFS "data.bin" scenario 4 (bytesOf main_p) dataFS_data rfl
      (by decide) (by decide) (by decide)).1⟩

/-- C3: when `Read_Person` opens the file and `fread` has filled an array of at least
four records, the output holds "Record Updated Successfully. " exactly when one of
the first four records has id 2 and "Record not found. " exactly when none has, and
the two messages together occur once. -/
theorem read_found_reporting (fs : FS) (filename : String) (p : List person)
    (count : Nat) (bytes : List Nat) (hd : fs.data filename = some bytes)
    (hu : fs.updatable filename = true) (hp : wfArray p) (hc : count ≤ p.length)
    (h4 : 4 ≤ p.length) :
    ∃ p1 ptr1, fread fs p SIZEOF_PERSON count ⟨filename, 0⟩ = some (p1, ptr1) ∧
      (Event.printf "Record Updated Successfully. \n" []
          ∈ (Read_Person fs filename p count).out
        ↔ ∃ i r, i < 4 ∧ p1[i]? = some r ∧ r.id = 2) ∧
      (Event.printf "Record not found. \n" [] ∈ (Read_Person fs filename p count).out
        ↔ ¬ ∃ i r, i < 4 ∧ p1[i]? = some r ∧ r.id = 2) ∧
      (Read_Person fs filename p count).out.count
          (Event.printf "Record Updated Successfully. \n" [])
        + (Read_Person fs filename p count).out.count
          (Event.printf "Record not found. \n" []) = 1 := by
  rw [Read_Person_eq fs filename p count bytes hd hu hp hc h4]
  refine ⟨_, _, fread_ok fs filename p count bytes hd hp hc, ?_⟩
  generalize loaded bytes p count = p1
  have hU := message_not_mem_scanLines p1 "Record Updated Successfully. \n"
  have hN := message_not_mem_scanLines p1 "Record not found. \n"
  have hne : Event.printf "Record not found. \n" []
      ≠ Event.printf "Record Updated Successfully. \n" [] := by decide
  rw [← foundFlag_ne_zero p1]
  simp only [List.mem_append, List.mem_singleton, List.count_append,
    List.count_eq_zero_of_not_mem hU, List.count_eq_zero_of_not_mem hN, hU, hN,
    false_or, zero_add]
  unfold verdict
  by_cases hf : foundFlag p1 ≠ 0
  · rw [if_pos hf]
    simp [hf, hne.symm, hne]
  · rw [if_neg hf]
    simp [hf, hne.symm, hne]

theorem read_found_reporting_witness :
    dataFS.data "data.bin" = some (bytesOf main_p) ∧ dataFS.updatable "data.bin" = true ∧
    wfArray main_p ∧ 4 ≤ main_p.length ∧
    (Read_Person dataFS "data.bin" main_p 4).out.count
        (Event.printf "Record Updated Successfully. \n" [])
      + (Read_Person dataFS "data.bin" main_p 4).out.count
        (Event.printf "Record not found. \n" []) = 1 := by
  obtain ⟨_, _, _, _, _, h⟩ := read_found_reporting dataFS "data.bin" main_p 4
    (bytesOf main_p) dataFS_data rfl (by decide) (by decide) (by decide)
  exact ⟨dataFS_data, rfl, by decide, by decide, h⟩

set_option maxRecDepth 100000 in
/-- C8: writing the four scenario records with `Write_Person` and reading four records
back with `Read_Person`, both files opening, returns without fault; the array then
holds "Ann" with id 1 and score `90.5`, "Bo" with id 2 and score `100.0`, "Cy" with
id 3 and score `67.2`, "Di" with id 4 and score `81.3`; one line is printed per
record, followed by "Record Updated Successfully. ". -/
theorem scenario_write_then_read (fs : FS) (filename : String) (buf : List person)
    (hw : fs.writable filename = true) (hu : fs.updatable filename = true)
    (hbuf : wfArray buf) (hlen : buf.length = 4) :
    (Write_Person fs filename scenario 4).fault = none ∧
    (Write_Person fs filename scenario 4).out
      = [Event.printf "File Writed to File permenently. \n" []] ∧
    (Write_then_Read fs filename scenario buf 4).fault = none ∧
    (Write_then_Read fs filename scenario buf 4).p
      = [⟨cstr "Ann", [0, 0, 0], 1, 1119158272⟩, ⟨cstr "Bo", [0, 0, 0], 2, HUNDRED⟩,
         ⟨cstr "Cy", [0, 0, 0], 3, 1116104294⟩, ⟨cstr "Di", [0, 0, 0], 4, 1117952410⟩] ∧
    (Write_then_Read fs filename scenario buf 4).out
      = [recordLine ⟨cstr "Ann", [0, 0, 0], 1, 1119158272⟩,
         recordLine ⟨cstr "Bo", [0, 0, 0], 2, HUNDRED⟩,
         recordLine ⟨cstr "Cy", [0, 0, 0], 3, 1116104294⟩,
         recordLine ⟨cstr "Di", [0, 0, 0], 4, 1117952410⟩,
         Event.printf "Record Updated Successfully. \n" []] := by
  have hs : wfArray scenario := by decide
  have h := Write_then_Read_eq fs filename scenario buf hw hu hs hbuf hlen (by decide)
  have hw4 := Write_Person_of_ok fs filename scenario 4 hw hs (by decide)
  have h4 : scenario.length = 4 := rfl
  rw [h4] at h
  rw [h, hw4]
  refine ⟨rfl, rfl, rfl, ?_, ?_⟩
  · show scanned scenario = _
    decide
  · show scanLines scenario ++ [verdict scenario] = _
    decide

theorem scenario_write_then_read_witness :
    freshFS.writable "data.bin" = true ∧ freshFS.updatable "data.bin" = true ∧
    wfArray main_p ∧ main_p.length = 4 ∧
    (Write_then_Read freshFS "data.bin" scenario main_p 4).fault = none :=
  ⟨rfl, rfl, by decide, rfl,
    (scenario_write_then_read freshFS "data.bin" main_p rfl rfl (by decide) rfl).2.2.1⟩

/-- C10: with indexing returning an option, the scan loop stays in bounds exactly
when the array has at least four records; on a shorter array it reaches the index
equal to the array length, outside the array. The same holds for `Read_Person` once
the file is open and the array has room for `count`. -/
theorem scan_in_bounds_iff (fs : FS) (filename : String) (p : List person) (count : Nat)
    (bytes : List Nat) (hd : fs.data filename = some bytes)
    (hu : fs.updatable filename = true) (hp : wfArray p) (hc : count ≤ p.length) :
    (∀ (q : List person) (out : List Event),
      ((scanLoop 4 0 ⟨q, 0, out⟩).2 = none ↔ 4 ≤ q.length) ∧
      (q.length < 4 → (scanLoop 4 0 ⟨q, 0, out⟩).2 = some (Fault.outOfBounds q.length))) ∧
    ((Read_Person fs filename p count).fault = none ↔ 4 ≤ p.length) ∧
    (p.length < 4 →
      (Read_Person fs filename p count).fault = some (Fault.outOfBounds p.length)) := by
  have hr := fread_ok fs filename p count bytes hd hp hc
  have hl := length_loaded bytes p count
  refine ⟨?_, ?_, ?_⟩
  · intro q out
    by_cases hq : 4 ≤ q.length
    · rw [scanLoop_of_four_le q hq]
      exact ⟨⟨fun _ => hq, fun _ => rfl⟩, fun h => absurd hq (by omega)⟩
    · rw [scanLoop_short q (by omega)]
      exact ⟨⟨fun h => (by cases h), fun h => absurd h hq⟩, fun _ => rfl⟩
  · by_cases h4 : 4 ≤ p.length
    · rw [Read_Person_eq fs filename p count bytes hd hu hp hc h4]
      exact ⟨fun _ => h4, fun _ => rfl⟩
    · rw [Read_Person_of_short fs filename p count bytes _ _ hd hu hr (by omega)]
      exact ⟨fun h => (by cases h), fun h => absurd h h4⟩
  · intro h4
    rw [Read_Person_of_short fs filename p count bytes _ _ hd hu hr (by omega), hl]

theorem scan_in_bounds_iff_witness :
    dataFS.data "data.bin" = some (bytesOf main_p) ∧ dataFS.updatable "data.bin" = true ∧
    wfArray two ∧ 2 ≤ two.length ∧ two.length < 4 ∧
    (Read_Person dataFS "data.bin" two 2).fault = some (Fault.outOfBounds two.length) :=
  ⟨dataFS_data, rfl, by decide, by decide, by decide,
    (scan_in_bounds_iff dataFS "data.bin" two 2 (bytesOf main_p) dataFS_data rfl
      (by decide) (by decide)).2.2 (by decide)⟩

end OpenCloseFile
